import Mathlib

/-!
Verification of the `pipe` template preprocessor and its operator runtime.

The Go sources are shallowly embedded below.  Text is represented as
`List Char` (`Str`); every definition mirrors the corresponding Go
function (file `part_000` for the preprocessor, `math.go` for the
operator runtime).  The Go byte scanner works on ASCII in every input the
spec discusses, so `Char` classification functions coincide with Go's
`unicode` predicates on the relevant inputs.  Imperative loops with early
returns are translated to structural recursion, with a fuel parameter
(instantiated with one more than the input length, an upper bound on the
number of loop iterations whenever every iteration consumes input) where
the recursion consumes a computed amount of input per step.  The Go
lexer's identifier loop does not consume a `$` character — its inner
loop condition rejects `$`, so the scanner re-examines the same position
forever, appending empty tokens: the lexer diverges on any `$` that
reaches it.  The model therefore returns `Option`: `none` means the loop
did not finish within the fuel bound, and since every branch except that
no-progress one consumes at least one character, `none` at fuel
length + 1 holds exactly when the Go loop runs forever.  Stacks grow at
the head: the Go code appends at the end of a slice and pops from the
end, which corresponds to pushing/popping the head of a Lean list.
-/

namespace Pipe

abbrev Str := List Char

/-- Shorthand turning a string literal into the `Str` representation. -/
def strL (s : String) : Str := s.toList

inductive TokenType where
  | num
  | var
  | op
  | paren
  | tern
deriving DecidableEq, Repr

/-- Token as in the Go source: a kind and its text. -/
structure Token where
  typ : TokenType
  value : Str
deriving DecidableEq, Repr

/-- Two-character operator test of the Go lexer (`==`, `!=`, `>=`, `<=`,
`&&`, `||`, `??`). -/
def twoOp (c c2 : Char) : Bool :=
  (c == '=' && c2 == '=') || (c == '!' && c2 == '=') || (c == '>' && c2 == '=') ||
  (c == '<' && c2 == '=') || (c == '&' && c2 == '&') || (c == '|' && c2 == '|') ||
  (c == '?' && c2 == '?')

/-- Whether the next two characters form a two-character operator. -/
def twoOpAt (c : Char) (cs : Str) : Bool :=
  match cs with
  | [] => false
  | c2 :: _ => twoOp c c2

/-- Single-character operators of the Go lexer: `strings.ContainsRune("+-*/><!:?", ch)`. -/
def singleOp (c : Char) : Bool :=
  (strL "+-*/><!:?").contains c

/-- Identifier continuation characters (letters, digits, `_`, `.`). -/
def identCont (c : Char) : Bool :=
  c.isAlpha || c.isDigit || c == '_' || c == '.'

/-- Scanner for the tail of a numeric literal: consumes digits, and a single
dot while `hasDot` is still false, exactly as the Go loop does. -/
def numTail (hasDot : Bool) : Str → Str × Str
  | [] => ([], [])
  | c :: cs =>
    if c.isDigit then
      let p := numTail hasDot cs
      (c :: p.1, p.2)
    else if !hasDot && c == '.' then
      let p := numTail true cs
      (c :: p.1, p.2)
    else
      ([], c :: cs)

/-- Splitting at the longest prefix satisfying `p` (the shape of the Go
`for`-loops that consume runs of characters, and of the stack-popping
loops of the parser). -/
def spanP {α : Type} (p : α → Bool) : List α → List α × List α
  | [] => ([], [])
  | c :: cs =>
    if p c then
      let r := spanP p cs
      (c :: r.1, r.2)
    else
      ([], c :: cs)

/-- Go `unicode.IsSpace` on the ASCII and Latin-1 range (tab, newline,
vertical tab, form feed, carriage return, space, next line, no-break
space).  Code points above U+00FF with the Unicode space property do not
occur in any input this development considers. -/
def isSpaceGo (c : Char) : Bool :=
  c == ' ' || c == '\t' || c == '\n' || c == Char.ofNat 11 || c == Char.ofNat 12 ||
  c == '\r' || c == Char.ofNat 133 || c == Char.ofNat 160

/-- Fuel-indexed lexer, mirroring `tokenize` from the Go source one loop
iteration per fuel unit.  `none` means the fuel ran out before the loop
finished.  The identifier branch is entered for letters, `_` and `$`,
but its inner loop (`spanP identCont`) accepts only letters, digits, `_`
and `.`: on a `$` it consumes nothing, the emitted token text is empty
and the position does not advance — exactly the Go code, whose loop then
repeats that iteration forever.  Every other branch consumes at least
one character, so with fuel `length + 1` the result is `none` precisely
for the inputs on which the Go lexer diverges. -/
def tokenizeF : Nat → Str → Option (List Token)
  | 0, _ => none
  | _ + 1, [] => some []
  | fuel + 1, c :: cs =>
    if isSpaceGo c then
      tokenizeF fuel cs
    else if c == '(' || c == ')' then
      (tokenizeF fuel cs).map (fun ts => Token.mk TokenType.paren [c] :: ts)
    else if twoOpAt c cs then
      (tokenizeF fuel cs.tail).map (fun ts => Token.mk TokenType.op [c, cs.headD ' '] :: ts)
    else if singleOp c then
      (tokenizeF fuel cs).map (fun ts => Token.mk TokenType.op [c] :: ts)
    else if c.isDigit then
      (tokenizeF fuel (numTail false cs).2).map
        (fun ts => Token.mk TokenType.num (c :: (numTail false cs).1) :: ts)
    else if c.isAlpha || c == '_' || c == '$' then
      (tokenizeF fuel (spanP identCont (c :: cs)).2).map
        (fun ts => Token.mk TokenType.var (spanP identCont (c :: cs)).1 :: ts)
    else
      (tokenizeF fuel cs).map (fun ts => Token.mk TokenType.var [c] :: ts)

/-- The lexer `tokenize` of the Go source; `none` when the Go loop never
terminates (which happens exactly when a `$` reaches the scanner). -/
def tokenize (s : Str) : Option (List Token) := tokenizeF (s.length + 1) s

/-- Go `tokensToString`: token texts joined by single spaces. -/
def tokensToString : List Token → Str
  | [] => []
  | [t] => t.value
  | t :: ts => t.value ++ ' ' :: tokensToString ts

/-- Test used by the ternary desugarer for the `?` operator token. -/
def isQTok (t : Token) : Bool :=
  (match t.typ with | TokenType.op => true | _ => false) && t.value == strL "?"

/-- Test for the `:` operator token. -/
def isColonTok (t : Token) : Bool :=
  (match t.typ with | TokenType.op => true | _ => false) && t.value == strL ":"

/-- Scan for the matching `:` of a `?` (Go `parseTernary` inner loop):
depth increases at each nested `?`, decreases at `:`; the depth-0 `:` is
the match.  Returns the index of the matching colon, if any. -/
def findColon : List Token → Nat → Option Nat
  | [], _ => none
  | t :: ts, depth =>
    if isQTok t then (findColon ts (depth + 1)).map (· + 1)
    else if isColonTok t then
      if depth == 0 then some 0 else (findColon ts (depth - 1)).map (· + 1)
    else (findColon ts depth).map (· + 1)

/-- Packed text of a ternary pseudo-token: `tern(cond,tb,fb)`. -/
def ternPack (cond tb fb : Str) : Str :=
  strL "tern(" ++ cond ++ strL "," ++ tb ++ strL "," ++ fb ++ strL ")"

/-- Go `parseTernary` main loop, with `out` the accumulated prefix. -/
def parseTernaryAux : List Token → List Token → List Token
  | out, [] => out
  | out, t :: ts =>
    if isQTok t then
      match out with
      | [] => parseTernaryAux [t] ts
      | o :: os =>
        let cond := (o :: os).getLast (List.cons_ne_nil o os)
        let front := (o :: os).dropLast
        match findColon ts 0 with
        | none => front ++ [cond] ++ t :: ts
        | some j =>
          let tb := ts.take j
          let fb := ts.drop (j + 1)
          front ++ [Token.mk TokenType.tern
            (ternPack cond.value (tokensToString tb) (tokensToString fb))]
    else
      parseTernaryAux (out ++ [t]) ts

/-- Go `parseTernary`: collapse the first top-level `cond ? a : b` into a
single `Tern` token. -/
def parseTernary (tokens : List Token) : List Token :=
  parseTernaryAux [] tokens

/-- Operator precedence table; a symbol absent from the Go map gets the
zero value 0, as Go map indexing does. -/
def prec (s : Str) : Nat :=
  if s == strL "!" then 6
  else if s == strL "*" then 5
  else if s == strL "/" then 5
  else if s == strL "+" then 4
  else if s == strL "-" then 4
  else if s == strL ">" then 3
  else if s == strL "<" then 3
  else if s == strL ">=" then 3
  else if s == strL "<=" then 3
  else if s == strL "==" then 3
  else if s == strL "!=" then 3
  else if s == strL "&&" then 2
  else if s == strL "||" then 1
  else 0

/-- Operator table `opMap` of the Go source: symbol to runtime function name. -/
def opMap (s : Str) : Option Str :=
  if s == strL "+" then some (strL "add")
  else if s == strL "-" then some (strL "sub")
  else if s == strL "*" then some (strL "mul")
  else if s == strL "/" then some (strL "div")
  else if s == strL "==" then some (strL "eq")
  else if s == strL "!=" then some (strL "ne")
  else if s == strL ">" then some (strL "gt")
  else if s == strL "<" then some (strL "lt")
  else if s == strL ">=" then some (strL "gte")
  else if s == strL "<=" then some (strL "lte")
  else if s == strL "&&" then some (strL "and")
  else if s == strL "||" then some (strL "or")
  else if s == strL "!" then some (strL "not")
  else if s == strL "??" then some (strL "nullish")
  else if s == strL "?" then some (strL "tern")
  else none

/-- Whether a token has operator kind (the `tok.typ == Op` test). -/
def isOpTok (t : Token) : Bool :=
  match t.typ with | TokenType.op => true | _ => false

/-- Pop from the top of `stack` while the top is not a left parenthesis
(the Go loop of the `)` case). -/
def popToLParen (stack : List Token) : List Token × List Token :=
  spanP (fun t => !(t.value == strL "(")) stack

/-- Discard a left parenthesis left at the top of the stack, if present. -/
def dropLParen : List Token → List Token
  | [] => []
  | t :: ts => if t.value == strL "(" then ts else t :: ts

/-- Shunting-yard step loop (Go `toRPN`): `out` is the output queue,
`stack` the operator stack with its top at the head. -/
def toRPNAux : List Token → List Token → List Token → List Token
  | [], out, stack => out ++ stack
  | t :: ts, out, stack =>
    match t.typ with
    | TokenType.var | TokenType.num | TokenType.tern => toRPNAux ts (out ++ [t]) stack
    | TokenType.op =>
      if t.value == strL "(" then toRPNAux ts out (t :: stack)
      else if t.value == strL ")" then
        let p := popToLParen stack
        toRPNAux ts (out ++ p.1) (dropLParen p.2)
      else
        let p := spanP (fun u => isOpTok u && prec t.value ≤ prec u.value) stack
        toRPNAux ts (out ++ p.1) (t :: p.2)
    | TokenType.paren =>
      if t.value == strL "(" then toRPNAux ts out (t :: stack)
      else
        let p := popToLParen stack
        toRPNAux ts (out ++ p.1) (dropLParen p.2)

/-- Go `toRPN` (shunting yard): infix token sequence to postfix. -/
def toRPN (tokens : List Token) : List Token :=
  toRPNAux tokens [] []

/-- Abort causes of the pipeline generator. -/
inductive GenErr where
  | underflow
  | unknownOp
  | badToken
deriving DecidableEq, Repr

/-- One step of the Go `rpnToPipeline` loop on the text stack (top at the
head).  The Go `switch` has cases only for `Var`/`Num` and `Op`; every
other kind (in particular `Tern`) falls into `default`, which aborts. -/
def genStep (stack : List Str) (t : Token) : Except GenErr (List Str) :=
  match t.typ with
  | TokenType.var | TokenType.num => Except.ok (t.value :: stack)
  | TokenType.op =>
    match opMap t.value with
    | none => Except.error GenErr.unknownOp
    | some fn =>
      if t.value == strL "!" then
        match stack with
        | [] => Except.error GenErr.underflow
        | a :: rest => Except.ok ((a ++ strL " | " ++ fn) :: rest)
      else
        match stack with
        | b :: a :: rest => Except.ok ((a ++ strL " | " ++ fn ++ strL " " ++ b) :: rest)
        | _ => Except.error GenErr.underflow
  | _ => Except.error GenErr.badToken

/-- Run the generator loop over the RPN sequence. -/
def genRun : List Token → List Str → Except GenErr (List Str)
  | [], stack => Except.ok stack
  | t :: ts, stack =>
    match genStep stack t with
    | Except.ok stack' => genRun ts stack'
    | Except.error e => Except.error e

/-- Go `rpnToPipeline`: on any abort, or when the final stack does not
hold exactly one entry, fall back to the original RPN sequence flattened
to space-joined text. -/
def rpnToPipeline (rpn : List Token) : Str :=
  match genRun rpn [] with
  | Except.ok [s] => s
  | _ => tokensToString rpn

/-- The expression conversion applied by the preprocessor when an
expression contains operator characters: lex, desugar the ternary,
convert to RPN, generate the pipeline text.  `none` when the lexer
diverges. -/
def convertExpr (s : Str) : Option Str :=
  (tokenize s).map (fun ts => rpnToPipeline (toRPN (parseTernary ts)))

/-- Word characters of the Go regex `\w` (ASCII letters, digits, `_`). -/
def isWordChar (c : Char) : Bool :=
  c.isAlpha || c.isDigit || c == '_'

/-- Consume the `(\.\w+)*` part of the variable-reference pattern: pairs of
a dot followed by a nonempty word-character run.  The fuel is an upper
bound on iterations (each one consumes at least two characters). -/
def takeDotsF : Nat → Str → Str × Str
  | 0, s => ([], s)
  | f + 1, s =>
    match s with
    | '.' :: rest =>
      let w := spanP isWordChar rest
      if w.1.isEmpty then ([], s)
      else
        let d := takeDotsF f w.2
        ('.' :: w.1 ++ d.1, d.2)
    | _ => ([], s)

/-- The Go check `strings.HasPrefix(after, ":=") || HasPrefix(after, "=") ||
HasPrefix(after, ":")` on the text immediately after a match. -/
def startsAssign (r : Str) : Bool :=
  (strL ":=").isPrefixOf r || (strL "=").isPrefixOf r || (strL ":").isPrefixOf r

/-- Go `replaceVars` loop: scan for `$\w+(\.\w+)*` matches (leftmost,
non-overlapping, as the Go regex finds them); a match immediately
followed by an assignment marker is kept, otherwise it is rewritten to
`Vars.`-prefixed dotted access.  Fuel bounds the number of characters. -/
def replaceVarsF : Nat → Str → Str
  | 0, s => s
  | _ + 1, [] => []
  | f + 1, c :: rest =>
    if c == '$' then
      let w := spanP isWordChar rest
      if w.1.isEmpty then c :: replaceVarsF f rest
      else
        let d := takeDotsF rest.length w.2
        let name := w.1 ++ d.1
        let after := d.2
        if startsAssign after then (c :: name) ++ replaceVarsF f after
        else (strL "Vars." ++ name) ++ replaceVarsF f after
    else
      c :: replaceVarsF f rest

/-- Go `replaceVars`. -/
def replaceVars (s : Str) : Str :=
  replaceVarsF s.length s

/-- First index at which `pat` occurs in `s` (Go `strings.Index`). -/
def findSub (pat : Str) : Str → Option Nat
  | [] => if pat.isEmpty then some 0 else none
  | c :: cs =>
    if pat.isPrefixOf (c :: cs) then some 0
    else (findSub pat cs).map (· + 1)

/-- Go `strings.TrimSpace` (`unicode.IsSpace` on both ends). -/
def trimSpace (s : Str) : Str :=
  ((s.dropWhile (fun c => isSpaceGo c)).reverse.dropWhile
    (fun c => isSpaceGo c)).reverse

/-- The operator-character test
`strings.ContainsAny(expr, "+-*/><=!&|?:")`. -/
def hasOpChar (s : Str) : Bool :=
  s.any (fun c => (strL "+-*/><=!&|?:").contains c)

/-- Go `strings.ReplaceAll` (leftmost, non-overlapping), fueled by the
input length. -/
def replaceAllF (pat rep : Str) : Nat → Str → Str
  | 0, s => s
  | _ + 1, [] => []
  | f + 1, c :: cs =>
    if !pat.isEmpty && pat.isPrefixOf (c :: cs) then
      rep ++ replaceAllF pat rep f ((c :: cs).drop pat.length)
    else
      c :: replaceAllF pat rep f cs

/-- Go `strings.ReplaceAll s pat rep`. -/
def replaceAll (s pat rep : Str) : Str :=
  replaceAllF pat rep s.length s

/-- Treatment of one placeholder interior by the Go `Preprocessor`:
rewrite `$vars`, then convert to a pipeline when operator characters are
present; finally requalify `Vars.` to `$.Vars.`.  `none` when the lexer
diverges inside the conversion. -/
def processExpr (expr : Str) : Option Str :=
  let e := replaceVars expr
  if hasOpChar e then
    (convertExpr e).map (fun t => replaceAll t (strL "Vars.") (strL "$.Vars."))
  else some (replaceAll e (strL "Vars.") (strL "$.Vars."))

/-- Go `Preprocessor` scanning loop.  Each iteration consumes at least
two characters (`idx + endIdx + 2`), so one more than the input length
bounds the number of iterations; `none` propagates the divergence of a
placeholder's lexing (the Go call never returns, so no output exists). -/
def preprocessF : Nat → Str → Option Str
  | 0, _ => none
  | f + 1, s =>
    match findSub (strL "\x7b\x7b") s with
    | none => some s
    | some idx =>
      let rest := s.drop idx
      match findSub (strL "\x7d\x7d") rest with
      | none => some (s.take idx ++ rest)
      | some e =>
        match processExpr (trimSpace ((rest.take e).drop 2)) with
        | none => none
        | some conv =>
          (preprocessF f (rest.drop (e + 2))).map
            (fun tail => s.take idx ++ strL "\x7b\x7b " ++ conv ++ strL " \x7d\x7d" ++ tail)

/-- Go `Preprocessor`; `none` when some placeholder's lexing diverges. -/
def Preprocessor (tmpl : Str) : Option Str :=
  preprocessF (tmpl.length + 1) tmpl

/-!
Operator runtime (`math.go`).  The runtime functions receive their
operands as `reflect.Value`s and coerce each to `float64` through
`toFloatRV` before doing arithmetic; for the numeric claims below the
operands are taken post-coercion, as rational numbers (the spec fixes the
arithmetic domain to double precision floats; every theorem below equates
two computations that perform the identical sequence of field operations
on both sides, so the rounding of each shared operation cancels and ℚ is
a faithful carrier).
-/

/-- Fold of Go `Div` over the operands before the last: divide the
accumulator by each in left-to-right order, returning 0 the moment a
divisor is zero (the Go early `return RV(float64(0))`). -/
def divFold : ℚ → List ℚ → ℚ
  | left, [] => left
  | left, d :: ds => if d = 0 then 0 else divFold (left / d) ds

/-- Go `Add`: the last operand is the accumulator; all earlier operands
are added to it in order.  An empty operand list yields 0. -/
def Add (vals : List ℚ) : ℚ :=
  match vals.getLast? with
  | none => 0
  | some left => vals.dropLast.foldl (fun acc v => acc + v) left

/-- Go `Sub`: accumulator is the last operand; earlier operands are
subtracted from it in left-to-right order. -/
def Sub (vals : List ℚ) : ℚ :=
  match vals.getLast? with
  | none => 0
  | some left => vals.dropLast.foldl (fun acc v => acc - v) left

/-- Go `Mul`. -/
def Mul (vals : List ℚ) : ℚ :=
  match vals.getLast? with
  | none => 0
  | some left => vals.dropLast.foldl (fun acc v => acc * v) left

/-- Go `Div`. -/
def Div (vals : List ℚ) : ℚ :=
  match vals.getLast? with
  | none => 0
  | some left => divFold left vals.dropLast

/-- A `reflect.Value` as far as `Nullish` observes it: either the invalid
zero `reflect.Value`, or a valid value of some kind. -/
inductive GoValue where
  | invalid
  | num : ℚ → GoValue
  | boolean : Bool → GoValue
  | str : Str → GoValue
deriving DecidableEq, Repr

/-- Go `reflect.Value.IsValid`. -/
def GoValue.isValid : GoValue → Bool
  | GoValue.invalid => false
  | _ => true

/-- Go `reflect.Value.IsZero`.  Calling it on the invalid zero
`reflect.Value` panics (`reflect: Value.IsZero on an invalid Value`), so
the result is an `Except` whose error is the panic. -/
def GoValue.isZeroE : GoValue → Except Str Bool
  | GoValue.invalid => Except.error (strL "reflect: Value.IsZero on zero Value")
  | GoValue.num x => Except.ok (decide (x = 0))
  | GoValue.boolean b => Except.ok (!b)
  | GoValue.str s => Except.ok s.isEmpty

/-- Go `Nullish`: the source evaluates `vals[0].IsZero()` first (the Go
`||` is left-to-right), and only then `!vals[0].IsValid()`; a panic in
`IsZero` therefore propagates. -/
def Nullish (a b : GoValue) : Except Str GoValue :=
  match a.isZeroE with
  | Except.error e => Except.error e
  | Except.ok z => if z || !a.isValid then Except.ok b else Except.ok a

/-!
Model of the external rendering engine, to the extent the claims refer to
it.  Modelled from the spec: the engine splits a placeholder's pipeline
text at `|` into stages executed left to right; the first stage is a
literal, and each later stage is a function name followed by literal
arguments, with the previous stage's result appended as the final
(trailing) operand — the accumulator convention of §4.6/§6.  Numeric
literals are parsed as ordinary decimal numerals.
-/

/-- Numeric value of a digit run. -/
def digitsToNat (s : Str) : Nat :=
  s.foldl (fun n c => n * 10 + (c.toNat - 48)) 0

/-- Modelled from the spec: decimal literal parsing by the host engine
(integer part, optional fractional part). -/
def parseNum (s : Str) : ℚ :=
  let p := spanP (fun c => !(c == '.')) s
  match p.2 with
  | [] => (digitsToNat p.1 : ℚ)
  | _ :: fs => (digitsToNat p.1 : ℚ) + (digitsToNat fs : ℚ) / (10 : ℚ) ^ fs.length

/-- Split a string at every occurrence of `sep`. -/
def splitOnChar (sep : Char) : Str → List Str
  | [] => [[]]
  | c :: cs =>
    match splitOnChar sep cs with
    | [] => [[]]
    | p :: ps => if c == sep then [] :: p :: ps else (c :: p) :: ps

/-- Space-separated words of a stage, empty fields dropped. -/
def wordsOf (s : Str) : List Str :=
  (splitOnChar ' ' s).filter (fun w => !w.isEmpty)

/-- Modelled from the spec: the function registry the host engine uses to
dispatch the arithmetic stage names onto the runtime of `math.go`. -/
def dispatch (fn : Str) : Option (List ℚ → ℚ) :=
  if fn == strL "add" then some Add
  else if fn == strL "sub" then some Sub
  else if fn == strL "mul" then some Mul
  else if fn == strL "div" then some Div
  else none

/-- Modelled from the spec: one pipeline stage applied to the piped-in
accumulator, which arrives as the last operand. -/
def evalStage (acc : ℚ) (stage : Str) : Option ℚ :=
  match wordsOf stage with
  | [] => none
  | fn :: args =>
    match dispatch fn with
    | none => none
    | some f => some (f (args.map parseNum ++ [acc]))

/-- Run the later stages left to right. -/
def runStages : ℚ → List Str → Option ℚ
  | acc, [] => some acc
  | acc, st :: sts =>
    match evalStage acc st with
    | none => none
    | some v => runStages v sts

/-- Modelled from the spec: evaluation of a generated pipeline text by a
conformant host engine — stages split at `|`, executed left to right,
each result feeding the next stage as its trailing operand. -/
def evalPipeline (s : Str) : Option ℚ :=
  match splitOnChar '|' s with
  | [] => none
  | first :: rest =>
    match wordsOf first with
    | [w] => runStages (parseNum w) rest
    | _ => none

/-- Direct infix evaluation of `x op y`, the reference semantics the
claims compare against. -/
def opEval (opc : Char) (x y : ℚ) : ℚ :=
  if opc == '+' then x + y
  else if opc == '-' then x - y
  else if opc == '*' then x * y
  else if opc == '/' then x / y
  else 0

/-- The decimal digits. -/
def digitChars : Str := strL "0123456789"

/-- A well-formed numeric literal as the Go lexer recognizes it: a
nonempty run of digits, optionally followed by a dot and a (possibly
empty) run of digits. -/
structure NumLit where
  ip : Str
  fp : Option Str
  ipNe : ip.isEmpty = false
  ipDig : ip.all (fun c => digitChars.contains c) = true
  fpDig : (fp.getD []).all (fun c => digitChars.contains c) = true

/-- The literal's source text. -/
def NumLit.render (n : NumLit) : Str :=
  n.ip ++ (match n.fp with | none => [] | some fs => '.' :: fs)

/-- Whether a character cannot continue a numeric literal (used to state
where the numeral scanner stops). -/
def numStopB : Str → Bool
  | [] => true
  | c :: _ => !c.isDigit && !(c == '.')

/-!
Theorems.  First the supporting lemmas about the embedded definitions,
then one named theorem (plus witness or counterexample) per claim.
-/

theorem numTail_snd_length (hasDot : Bool) (cs : Str) :
    (numTail hasDot cs).2.length ≤ cs.length := by
  induction cs generalizing hasDot with
  | nil => simp [numTail]
  | cons c cs ih =>
    simp only [numTail]
    split
    · simpa using Nat.le_succ_of_le (ih _)
    · split
      · simpa using Nat.le_succ_of_le (ih _)
      · simp

theorem spanP_snd_length {α : Type} (p : α → Bool) (cs : List α) :
    (spanP p cs).2.length ≤ cs.length := by
  induction cs with
  | nil => simp [spanP]
  | cons c cs ih =>
    simp only [spanP]
    split
    · simpa using Nat.le_succ_of_le ih
    · simp

theorem tail_length_le (cs : Str) : cs.tail.length ≤ cs.length := by
  cases cs <;> simp

theorem tokenizeF_dollar : ∀ (f : Nat) (cs : Str), tokenizeF f ('$' :: cs) = none := by
  intro f
  induction f with
  | zero => intro cs; rfl
  | succ f ih =>
    intro cs
    cases cs with
    | nil =>
      have hstep : tokenizeF (f + 1) ['$'] =
          (tokenizeF f ['$']).map
            (fun ts => Token.mk TokenType.var (spanP identCont ['$']).1 :: ts) := rfl
      rw [hstep, ih []]
      rfl
    | cons c2 cs2 =>
      have hstep : tokenizeF (f + 1) ('$' :: c2 :: cs2) =
          (tokenizeF f ('$' :: c2 :: cs2)).map
            (fun ts =>
              Token.mk TokenType.var (spanP identCont ('$' :: c2 :: cs2)).1 :: ts) := rfl
      rw [hstep, ih (c2 :: cs2)]
      rfl

theorem identCont_false_dollar (c : Char)
    (hid : (c.isAlpha || c == '_' || c == '$') = true)
    (hcont : identCont c = false) : c = '$' := by
  rw [identCont] at hcont
  simp only [Bool.or_eq_false_iff] at hcont
  simp only [Bool.or_eq_true] at hid
  rcases hid with (ha | hu) | hd
  · rw [ha] at hcont
    simp at hcont
  · rw [hu] at hcont
    simp at hcont
  · exact beq_iff_eq.mp hd

theorem tokenizeF_congr :
    ∀ (f g : Nat) (cs : Str), cs.length < f → cs.length < g →
      tokenizeF f cs = tokenizeF g cs := by
  intro f
  induction f with
  | zero =>
    intro g cs hf _
    exact absurd hf (Nat.not_lt_zero _)
  | succ f ih =>
    intro g cs hf hg
    cases cs with
    | nil =>
      cases g with
      | zero => simp at hg
      | succ g => rfl
    | cons c cs =>
      cases g with
      | zero => simp at hg
      | succ g =>
        have hlen : cs.length < f := by simpa using hf
        have hlen' : cs.length < g := by simpa using hg
        simp only [tokenizeF]
        split
        · exact ih g cs hlen hlen'
        · split
          · rw [ih g cs hlen hlen']
          · split
            · rw [ih g cs.tail (lt_of_le_of_lt (tail_length_le cs) hlen)
                (lt_of_le_of_lt (tail_length_le cs) hlen')]
            · split
              · rw [ih g cs hlen hlen']
              · split
                · rw [ih g (numTail false cs).2
                    (lt_of_le_of_lt (numTail_snd_length false cs) hlen)
                    (lt_of_le_of_lt (numTail_snd_length false cs) hlen')]
                · split
                  · rename_i hid
                    cases hcont : identCont c with
                    | true =>
                      have hsp : (spanP identCont (c :: cs)).2 =
                          (spanP identCont cs).2 := by
                        simp [spanP, hcont]
                      rw [hsp, ih g (spanP identCont cs).2
                        (lt_of_le_of_lt (spanP_snd_length identCont cs) hlen)
                        (lt_of_le_of_lt (spanP_snd_length identCont cs) hlen')]
                    | false =>
                      have hc : c = '$' := identCont_false_dollar c hid hcont
                      subst hc
                      have hsp : (spanP identCont ('$' :: cs)).2 = '$' :: cs := by
                        simp [spanP, identCont]
                      rw [hsp, tokenizeF_dollar f cs, tokenizeF_dollar g cs]
                  · rw [ih g cs hlen hlen']

theorem tokenizeF_eq_tokenize (f : Nat) (s : Str) (h : s.length < f) :
    tokenizeF f s = tokenize s :=
  tokenizeF_congr f (s.length + 1) s h (Nat.lt_succ_self _)

theorem spanP_all {α : Type} (p : α → Bool) (l : List α)
    (h : ∀ x ∈ l, p x = true) : spanP p l = (l, []) := by
  induction l with
  | nil => rfl
  | cons c cs ih =>
    have hc := h c (List.mem_cons_self c cs)
    simp [spanP, hc, ih (fun x hx => h x (List.mem_cons_of_mem c hx))]

theorem divFold_zero (ds : List ℚ) (left : ℚ) (h : (0 : ℚ) ∈ ds) :
    divFold left ds = 0 := by
  induction ds generalizing left with
  | nil => simp at h
  | cons d ds ih =>
    by_cases hd : d = 0
    · simp [divFold, hd]
    · rcases List.mem_cons.mp h with h0 | h0
      · exact absurd h0.symm hd
      · simp [divFold, hd, ih _ h0]

theorem digitChars_eq :
    digitChars = ['0', '1', '2', '3', '4', '5', '6', '7', '8', '9'] := rfl

theorem digit_char_facts (c : Char) (h : digitChars.contains c = true) :
    isSpaceGo c = false ∧ (c == '(' || c == ')') = false ∧ singleOp c = false ∧
    c.isDigit = true ∧ c ≠ '=' ∧ c ≠ '!' ∧ c ≠ '>' ∧ c ≠ '<' ∧ c ≠ '&' ∧
    c ≠ '|' ∧ c ≠ '?' ∧ c ≠ '.' := by
  have h' : c ∈ ['0', '1', '2', '3', '4', '5', '6', '7', '8', '9'] := by
    rw [digitChars_eq] at h
    simpa using h
  fin_cases h' <;> decide

theorem twoOp_digit (c : Char) (h : digitChars.contains c = true) (c2 : Char) :
    twoOp c c2 = false := by
  obtain ⟨-, -, -, -, h1, h2, h3, h4, h5, h6, h7, -⟩ := digit_char_facts c h
  simp [twoOp, h1, h2, h3, h4, h5, h6, h7]

theorem twoOpAt_digit (c : Char) (h : digitChars.contains c = true) (cs : Str) :
    twoOpAt c cs = false := by
  cases cs with
  | nil => rfl
  | cons c2 rest => exact twoOp_digit c h c2

theorem numTail_digits (ds : Str) (h : ds.all (fun c => digitChars.contains c) = true)
    (b : Bool) (r : Str) :
    numTail b (ds ++ r) = (ds ++ (numTail b r).1, (numTail b r).2) := by
  induction ds with
  | nil => simp
  | cons c cs ih =>
    rw [List.all_cons, Bool.and_eq_true] at h
    have hd : c.isDigit = true := (digit_char_facts c h.1).2.2.2.1
    simp [numTail, hd, ih h.2]

theorem numTail_stop (b : Bool) (r : Str) (h : numStopB r = true) :
    numTail b r = ([], r) := by
  cases r with
  | nil => rfl
  | cons c cs =>
    rw [numStopB, Bool.and_eq_true] at h
    obtain ⟨h1, h2⟩ := h
    rw [Bool.not_eq_true'] at h1 h2
    simp [numTail, h1, h2]

theorem tokenize_num (n : NumLit) (r : Str) (hr : numStopB r = true) :
    tokenize (n.render ++ r) =
      (tokenize r).map (fun ts => Token.mk TokenType.num n.render :: ts) := by
  obtain ⟨ip, fp, hne, hdig, hfp⟩ := n
  cases ip with
  | nil => simp at hne
  | cons c0 ipt =>
    rw [List.all_cons, Bool.and_eq_true] at hdig
    obtain ⟨hws, hpar, hsing, hdigit, -, -, -, -, -, -, -, -⟩ :=
      digit_char_facts c0 hdig.1
    have htwo := twoOpAt_digit c0 hdig.1
    cases fp with
    | none =>
      simp only [NumLit.render, List.append_nil, List.cons_append]
      have hunfold : tokenize (c0 :: (ipt ++ r)) =
          tokenizeF ((ipt ++ r).length + 2) (c0 :: (ipt ++ r)) := rfl
      rw [hunfold]
      simp only [tokenizeF, hws, hpar, htwo, hsing, hdigit, Bool.false_eq_true,
        if_false, if_true]
      rw [numTail_digits ipt hdig.2 false r, numTail_stop false r hr]
      simp only [List.append_nil]
      rw [tokenizeF_eq_tokenize _ r (by simp; omega)]
    | some fs =>
      have hfp' : fs.all (fun c => digitChars.contains c) = true := by simpa using hfp
      simp only [NumLit.render, List.cons_append, List.append_assoc]
      have hunfold : tokenize (c0 :: (ipt ++ '.' :: (fs ++ r))) =
          tokenizeF ((ipt ++ '.' :: (fs ++ r)).length + 2)
            (c0 :: (ipt ++ '.' :: (fs ++ r))) := rfl
      rw [hunfold]
      simp only [tokenizeF, hws, hpar, htwo, hsing, hdigit, Bool.false_eq_true,
        if_false, if_true]
      have hdot : numTail false ('.' :: (fs ++ r)) =
          ('.' :: (numTail true (fs ++ r)).1, (numTail true (fs ++ r)).2) := rfl
      rw [numTail_digits ipt hdig.2 false ('.' :: (fs ++ r)), hdot,
        numTail_digits fs hfp' true r, numTail_stop true r hr]
      simp only [List.append_nil]
      rw [tokenizeF_eq_tokenize _ r (by simp; omega)]

theorem parseTernaryAux_no_q :
    ∀ (ts out : List Token), (∀ t ∈ ts, isQTok t = false) →
      parseTernaryAux out ts = out ++ ts := by
  intro ts
  induction ts with
  | nil =>
    intro out _
    simp [parseTernaryAux]
  | cons t ts ih =>
    intro out h
    have ht := h t (List.mem_cons_self t ts)
    simp only [parseTernaryAux, ht, Bool.false_eq_true, if_false]
    rw [ih (out ++ [t]) (fun u hu => h u (List.mem_cons_of_mem t hu))]
    simp

theorem tokens_of_binop (n m : NumLit) (opc : Char)
    (h2 : tokenize (' ' :: opc :: ' ' :: m.render) =
      (tokenize m.render).map (fun ts => Token.mk TokenType.op [opc] :: ts)) :
    tokenize (n.render ++ ' ' :: opc :: ' ' :: m.render) =
      some [Token.mk TokenType.num n.render, Token.mk TokenType.op [opc],
        Token.mk TokenType.num m.render] := by
  rw [tokenize_num n (' ' :: opc :: ' ' :: m.render) rfl, h2]
  have h3 : tokenize m.render = some [Token.mk TokenType.num m.render] := by
    have h4 := tokenize_num m [] rfl
    rw [List.append_nil] at h4
    rw [h4]
    rfl
  rw [h3]
  rfl

theorem parseTernary_three (v1 v2 : Str) (opc : Char)
    (h : isQTok (Token.mk TokenType.op [opc]) = false) :
    parseTernary [Token.mk TokenType.num v1, Token.mk TokenType.op [opc],
        Token.mk TokenType.num v2] =
      [Token.mk TokenType.num v1, Token.mk TokenType.op [opc],
       Token.mk TokenType.num v2] := by
  rw [parseTernary, parseTernaryAux_no_q _ [] ?_]
  · simp
  · intro t ht
    fin_cases ht
    · rfl
    · exact h
    · rfl

/-- Claim C1 (status: confirmed).  For any two numeric literals `a`, `b`
and `op` among `+ - * /` (with nonzero right operand for `/`),
preprocessing the expression `a op b` yields exactly the pipeline text
`a | fn b`, where `fn` is the operator table's runtime function name for
`op`; and the runtime call `fn(b, a)` made by a conformant host engine
(the piped value arriving last) equals the direct infix evaluation
`a op b` on the post-coercion operand values. -/
theorem c1_binary_op (n m : NumLit) (opc : Char)
    (hop : opc ∈ ['+', '-', '*', '/']) (x y : ℚ) (hy : opc = '/' → y ≠ 0) :
    convertExpr (n.render ++ ' ' :: opc :: ' ' :: m.render) =
      some (n.render ++ strL " | " ++ (opMap [opc]).getD [] ++ strL " " ++ m.render) ∧
    ∃ F, dispatch ((opMap [opc]).getD []) = some F ∧ F [y, x] = opEval opc x y := by
  fin_cases hop
  · refine ⟨?_, Pipe.Add, rfl, rfl⟩
    simp only [convertExpr]
    rw [tokens_of_binop n m '+' rfl, Option.map_some', parseTernary_three _ _ '+' rfl]
    rfl
  · refine ⟨?_, Pipe.Sub, rfl, rfl⟩
    simp only [convertExpr]
    rw [tokens_of_binop n m '-' rfl, Option.map_some', parseTernary_three _ _ '-' rfl]
    rfl
  · refine ⟨?_, Pipe.Mul, rfl, rfl⟩
    simp only [convertExpr]
    rw [tokens_of_binop n m '*' rfl, Option.map_some', parseTernary_three _ _ '*' rfl]
    rfl
  · refine ⟨?_, Pipe.Div, rfl, ?_⟩
    · simp only [convertExpr]
      rw [tokens_of_binop n m '/' rfl, Option.map_some', parseTernary_three _ _ '/' rfl]
      rfl
    · have hy' : y ≠ 0 := hy rfl
      show (if y = 0 then (0 : ℚ) else x / y) = x / y
      exact if_neg hy'

theorem c1_binary_op_witness :
    convertExpr (strL "7.5 / 3") = some (strL "7.5 | div 3") ∧
    ∃ F, dispatch (strL "div") = some F ∧
      F [3, 15 / 2] = opEval '/' (15 / 2) 3 :=
  c1_binary_op ⟨strL "7", some (strL "5"), rfl, rfl, rfl⟩
    ⟨strL "3", none, rfl, rfl, rfl⟩ '/' (by decide) (15 / 2) 3
    (fun _ => by norm_num)

/-- Claim C2 (status: code_bug).  Preprocessing `2 + 3 * 4` emits the flat
pipeline `2 | add 3 | mul 4` with no grouping of the right-hand
sub-pipeline; a conformant host engine executes the three stages left to
right under the accumulator convention, giving `mul(4, add(3, 2)) = 20`,
not the `14` the claim (and the spec's precedence property) requires. -/
theorem c2_precedence_failing_eval :
    convertExpr (strL "2 + 3 * 4") = some (strL "2 | add 3 | mul 4") ∧
    evalPipeline (strL "2 | add 3 | mul 4") = some 20 ∧
    evalPipeline (strL "2 | add 3 | mul 4") ≠ some 14 := by
  have h : evalPipeline (strL "2 | add 3 | mul 4") = some 20 := by
    simp +decide [evalPipeline, splitOnChar, wordsOf, runStages, evalStage, dispatch,
      Pipe.Add, Pipe.Sub, Pipe.Mul, Pipe.Div, divFold, parseNum, digitsToNat, spanP,
      strL, List.filter]
    norm_num
  refine ⟨by decide, h, ?_⟩
  rw [h]
  intro hc
  rw [Option.some.injEq] at hc
  norm_num at hc

/-- Claim C3 (status: confirmed).  `10 - 3 - 2` preprocesses to the
chained pipeline `10 | sub 3 | sub 2`; executing the stages left to right
with the runtime `Sub` (accumulator is the last operand, earlier operands
subtracted in order) yields 5, not 9. -/
theorem c3_left_assoc :
    convertExpr (strL "10 - 3 - 2") = some (strL "10 | sub 3 | sub 2") ∧
    evalPipeline (strL "10 | sub 3 | sub 2") = some 5 ∧
    evalPipeline (strL "10 | sub 3 | sub 2") ≠ some 9 := by
  have h : evalPipeline (strL "10 | sub 3 | sub 2") = some 5 := by
    simp +decide [evalPipeline, splitOnChar, wordsOf, runStages, evalStage, dispatch,
      Pipe.Add, Pipe.Sub, Pipe.Mul, Pipe.Div, divFold, parseNum, digitsToNat, spanP,
      strL, List.filter]
    norm_num
  refine ⟨by decide, h, ?_⟩
  rw [h]
  intro hc
  rw [Option.some.injEq] at hc
  norm_num at hc

/-- Claim C4 (status: code_bug).  The generator's switch has no case for
`Tern` tokens (despite the source comment "supports Tern token"), so a
ternary pseudo-token falls into the `default` branch and the whole RPN
sequence is flattened back to plain text instead of the packed text being
pushed: the RPN `[Num 5, Tern tern(1,2,3), Op +]` produces
`5 tern(1,2,3) +`, not `5 | add tern(1,2,3)`. -/
theorem c4_tern_fallback_eval :
    rpnToPipeline [Token.mk TokenType.num (strL "5"),
        Token.mk TokenType.tern (strL "tern(1,2,3)"),
        Token.mk TokenType.op (strL "+")] = strL "5 tern(1,2,3) +" ∧
    rpnToPipeline [Token.mk TokenType.num (strL "5"),
        Token.mk TokenType.tern (strL "tern(1,2,3)"),
        Token.mk TokenType.op (strL "+")] ≠ strL "5 | add tern(1,2,3)" := by
  decide

/-- Claim C5 (status: confirmed).  Whenever the generator run aborts with
a stack underflow or an unknown operator symbol, or ends with a final
stack whose size is not 1, `rpnToPipeline` discards its output and
returns the original RPN sequence flattened to space-joined text. -/
theorem c5_generator_fallback (rpn : List Token)
    (h : genRun rpn [] = Except.error GenErr.underflow ∨
         genRun rpn [] = Except.error GenErr.unknownOp ∨
         ∃ st, genRun rpn [] = Except.ok st ∧ st.length ≠ 1) :
    rpnToPipeline rpn = tokensToString rpn := by
  unfold rpnToPipeline
  rcases h with h | h | ⟨st, h, hlen⟩
  · rw [h]
  · rw [h]
  · rw [h]
    cases st with
    | nil => rfl
    | cons a tl =>
      cases tl with
      | nil => simp at hlen
      | cons b tl2 => rfl

theorem c5_generator_fallback_witness :
    genRun [Token.mk TokenType.op (strL "+")] [] = Except.error GenErr.underflow ∧
    rpnToPipeline [Token.mk TokenType.op (strL "+")] =
      tokensToString [Token.mk TokenType.op (strL "+")] :=
  ⟨rfl, c5_generator_fallback _ (Or.inl rfl)⟩

/-- Claim C6 (status: code_bug).  `Nullish` evaluates
`vals[0].IsZero() || !vals[0].IsValid()` left to right, and Go's
`reflect.Value.IsZero` panics on the invalid zero `reflect.Value`; so for
an invalid first argument `Nullish` panics instead of returning the
second argument as the claim (and the source's own dead `IsValid` check)
intend. -/
theorem c6_nullish_panics :
    Nullish GoValue.invalid (GoValue.num 1) =
      Except.error (strL "reflect: Value.IsZero on zero Value") ∧
    (∀ b, Nullish GoValue.invalid b =
      Except.error (strL "reflect: Value.IsZero on zero Value")) ∧
    Nullish (GoValue.num 0) (GoValue.num 7) = Except.ok (GoValue.num 7) ∧
    Nullish (GoValue.num 3) (GoValue.num 7) = Except.ok (GoValue.num 3) := by
  refine ⟨rfl, fun b => rfl, rfl, rfl⟩

/-- Counterexample to claim C7: the rewriter does not leave `$a := 1`
unmodified, because the text immediately after the match `$a` is a space,
not an assignment marker. -/
theorem c7_assignment_counterexample :
    replaceVars (strL "$a := 1") ≠ strL "$a := 1" := by decide

/-- Claim C7 as amended (status: corrected).  A `$name` match is kept
only when the assignment marker follows immediately; `$a := 1` (with the
conventional space) is rewritten to `Vars.a := 1`, and consequently the
placeholder `{{ $a := 1 }}` does not pass through preprocessing
unmodified. -/
theorem c7_assignment_amended :
    replaceVars (strL "$a := 1") = strL "Vars.a := 1" ∧
    replaceVars (strL "$a:= 1") = strL "$a:= 1" ∧
    replaceVars (strL "$a=1") = strL "$a=1" ∧
    replaceVars (strL "$a:1") = strL "$a:1" ∧
    Preprocessor (strL "\x7b\x7b $a := 1 \x7d\x7d") ≠
      some (strL "\x7b\x7b $a := 1 \x7d\x7d") := by decide

/-- Counterexample to claim C8: an unmatched `)` is not a no-op — it
flushes the pending operator stack into the output, so
`1 + 2 ) * 3` and `1 + 2 * 3` produce different RPN sequences. -/
theorem c8_unmatched_paren_counterexample :
    toRPN [Token.mk TokenType.num (strL "1"), Token.mk TokenType.op (strL "+"),
        Token.mk TokenType.num (strL "2"), Token.mk TokenType.paren (strL ")"),
        Token.mk TokenType.op (strL "*"), Token.mk TokenType.num (strL "3")] ≠
      toRPN [Token.mk TokenType.num (strL "1"), Token.mk TokenType.op (strL "+"),
        Token.mk TokenType.num (strL "2"),
        Token.mk TokenType.op (strL "*"), Token.mk TokenType.num (strL "3")] := by
  decide

/-- Claim C8 as amended (status: corrected).  A `)` met while no `(` is
on the operator stack pops every stacked operator to the output queue and
is then discarded; it is removal-equivalent only in the special case of
an empty operator stack. -/
theorem c8_unmatched_paren_amended (ts out stack : List Token)
    (h : ∀ t ∈ stack, (t.value == strL "(") = false) :
    toRPNAux (Token.mk TokenType.paren (strL ")") :: ts) out stack =
      toRPNAux ts (out ++ stack) [] := by
  have hspan : spanP (fun t => !(t.value == strL "(")) stack = (stack, []) :=
    spanP_all _ _ (fun t ht => by rw [h t ht]; rfl)
  have hred : toRPNAux (Token.mk TokenType.paren (strL ")") :: ts) out stack =
      toRPNAux ts (out ++ (popToLParen stack).1) (dropLParen (popToLParen stack).2) := rfl
  rw [hred]
  simp only [popToLParen]
  rw [hspan]
  rfl

theorem c8_unmatched_paren_amended_witness :
    toRPNAux (Token.mk TokenType.paren (strL ")") :: [Token.mk TokenType.num (strL "2")])
        [Token.mk TokenType.num (strL "1")] [Token.mk TokenType.op (strL "+")] =
      toRPNAux [Token.mk TokenType.num (strL "2")]
        ([Token.mk TokenType.num (strL "1")] ++ [Token.mk TokenType.op (strL "+")]) [] :=
  c8_unmatched_paren_amended _ _ _ (by decide)

/-- Claim C9 (status: confirmed).  `Div` returns exactly 0 whenever any
divisor operand (any operand before the last, which is the accumulator)
is zero; the function is total on its rational model (no error, panic or
infinity), and the pipeline generated for `5 / 0` is `5 | div 0`, which
evaluates to 0. -/
theorem c9_div_by_zero :
    (∀ vals : List ℚ, (0 : ℚ) ∈ vals.dropLast → Div vals = 0) ∧
    convertExpr (strL "5 / 0") = some (strL "5 | div 0") ∧
    evalPipeline (strL "5 | div 0") = some 0 := by
  refine ⟨?_, by decide, ?_⟩
  · intro vals h
    rcases List.eq_nil_or_concat vals with rfl | ⟨init, a, rfl⟩
    · simp at h
    · simp only [List.concat_eq_append] at h ⊢
      rw [Div, List.getLast?_concat, List.dropLast_concat]
      rw [List.dropLast_concat] at h
      exact divFold_zero _ _ h
  · simp +decide [evalPipeline, splitOnChar, wordsOf, runStages, evalStage, dispatch,
      Pipe.Add, Pipe.Sub, Pipe.Mul, Pipe.Div, divFold, parseNum, digitsToNat, spanP,
      strL, List.filter]

theorem c9_div_by_zero_witness :
    (0 : ℚ) ∈ ([0, 5] : List ℚ).dropLast ∧ Div [0, 5] = 0 :=
  ⟨by simp, c9_div_by_zero.1 [0, 5] (by simp)⟩

theorem findSub_none (pat : Str) :
    ∀ s, findSub pat s = none → ∀ k, pat.isPrefixOf (s.drop k) = false := by
  intro s
  induction s with
  | nil =>
    intro h k
    cases pat with
    | nil => simp [findSub] at h
    | cons c cs => simp [List.isPrefixOf]
  | cons c cs ih =>
    intro h k
    by_cases hp : pat.isPrefixOf (c :: cs) = true
    · simp [findSub, hp] at h
    · have hrest : findSub pat cs = none := by
        simp only [findSub] at h
        rw [if_neg (by simp [hp])] at h
        exact Option.map_eq_none.mp h
      cases k with
      | zero =>
        rw [List.drop_zero]
        exact Bool.eq_false_iff.mpr hp
      | succ k => exact ih hrest k

theorem findSub_some (pat : Str) :
    ∀ s i, findSub pat s = some i → pat.isPrefixOf (s.drop i) = true := by
  intro s
  induction s with
  | nil =>
    intro i h
    cases pat with
    | nil => simp [List.isPrefixOf]
    | cons c cs => simp [findSub, List.isEmpty] at h
  | cons c cs ih =>
    intro i h
    by_cases hp : pat.isPrefixOf (c :: cs) = true
    · simp only [findSub, if_pos hp] at h
      cases h
      simpa using hp
    · simp only [findSub] at h
      rw [if_neg (by simp [hp])] at h
      obtain ⟨j, hj, rfl⟩ := Option.map_eq_some.mp h
      exact ih j hj

theorem prefix_append_self (m t : Str) : m.isPrefixOf (m ++ t) = true := by
  induction m with
  | nil => cases t <;> rfl
  | cons c cs ih => simp [List.isPrefixOf, ih]

theorem preprocessF_unclosed :
    ∀ (f : Nat) (s b out : Str), s.length < f →
      (∃ a, s = a ++ strL "\x7b\x7b" ++ b) →
      findSub (strL "\x7d\x7d") (strL "\x7b\x7b" ++ b) = none →
      preprocessF f s = some out →
      ∃ p, out = p ++ strL "\x7b\x7b" ++ b := by
  intro f
  induction f with
  | zero =>
    intro s b out hf _ _ _
    exact absurd hf (Nat.not_lt_zero _)
  | succ f ih =>
    intro s b out hf hex hnc hrun
    obtain ⟨a, ha⟩ := hex
    have ha' : s = a ++ (strL "\x7b\x7b" ++ b) := by rw [ha, List.append_assoc]
    cases hidx : findSub (strL "\x7b\x7b") s with
    | none =>
      exfalso
      have hfalse := findSub_none _ s hidx a.length
      rw [ha', List.drop_left] at hfalse
      rw [prefix_append_self] at hfalse
      exact Bool.true_eq_false.mp hfalse
    | some idx =>
      cases hcl : findSub (strL "\x7d\x7d") (s.drop idx) with
      | none =>
        refine ⟨a, ?_⟩
        simp only [preprocessF, hidx, hcl, Option.some.injEq] at hrun
        rw [← hrun, List.take_append_drop, ha]
      | some e =>
        have hpre : (strL "\x7d\x7d").isPrefixOf (s.drop (idx + e)) = true := by
          have h1 := findSub_some _ (s.drop idx) e hcl
          rwa [List.drop_drop] at h1
        have hble : idx + e + 2 ≤ a.length := by
          by_contra hgt
          push_neg at hgt
          rcases Nat.lt_or_ge (idx + e) a.length with hlt | hge
          · have hdrop : s.drop (idx + e) = a.drop (idx + e) ++ (strL "\x7b\x7b" ++ b) := by
              rw [ha', List.drop_append_eq_append_drop,
                Nat.sub_eq_zero_of_le (Nat.le_of_lt hlt), List.drop_zero]
            have hlen1 : (a.drop (idx + e)).length = 1 := by
              rw [List.length_drop]
              omega
            obtain ⟨ch, hch⟩ := List.length_eq_one.mp hlen1
            rw [hdrop, hch] at hpre
            have hred : (strL "\x7d\x7d").isPrefixOf ([ch] ++ (strL "\x7b\x7b" ++ b)) =
                (('}' == ch) && false) := rfl
            rw [hred] at hpre
            simp at hpre
          · have hdrop : s.drop (idx + e) = (strL "\x7b\x7b" ++ b).drop (idx + e - a.length) := by
              rw [ha', List.drop_append_eq_append_drop,
                List.drop_eq_nil_of_le (by simpa using hge), List.nil_append]
            rw [hdrop, findSub_none _ _ hnc (idx + e - a.length)] at hpre
            exact Bool.false_eq_true.mp hpre
        have hdrop2 : (s.drop idx).drop (e + 2) =
            a.drop (idx + e + 2) ++ (strL "\x7b\x7b" ++ b) := by
          rw [List.drop_drop]
          have heq : idx + (e + 2) = idx + e + 2 := by omega
          rw [heq, ha', List.drop_append_eq_append_drop,
            Nat.sub_eq_zero_of_le hble, List.drop_zero]
        have hL2 : (strL "\x7b\x7b" ++ b).length = b.length + 2 := by
          rw [List.length_append, show (strL "\x7b\x7b").length = 2 from rfl]
          omega
        have h3 : s.length = a.length + (b.length + 2) := by
          rw [ha', List.length_append, hL2]
        have hlen2 : ((s.drop idx).drop (e + 2)).length < f := by
          simp only [List.length_drop]
          omega
        simp only [preprocessF, hidx, hcl] at hrun
        split at hrun
        · simp at hrun
        · rename_i conv hpe
          rw [Option.map_eq_some'] at hrun
          obtain ⟨tail, htail, hout⟩ := hrun
          obtain ⟨p', hp'⟩ := ih ((s.drop idx).drop (e + 2)) b tail hlen2
            ⟨a.drop (idx + e + 2), by rw [hdrop2, List.append_assoc]⟩ hnc htail
          refine ⟨s.take idx ++ strL "\x7b\x7b " ++ conv ++ strL " \x7d\x7d" ++ p', ?_⟩
          rw [← hout, hp']
          simp [List.append_assoc]

/-- Counterexample to claim C10: the template `{{ $a:=1 }}{{` contains an
opening marker (the trailing `{{`) with no subsequent closing marker, yet
the preprocessor does not terminate normally and copies nothing: inside
the first placeholder `$a` is kept by the rewriter (the assignment marker
follows immediately), the text contains operator characters, and the Go
lexer loops forever on the `$` — the whole `Preprocessor` call diverges,
so no output exists (the model returns `none`). -/
theorem c10_unclosed_marker_counterexample :
    (strL "\x7b\x7b $a:=1 \x7d\x7d\x7b\x7b" =
      strL "\x7b\x7b $a:=1 \x7d\x7d" ++ strL "\x7b\x7b" ++ ([] : Str)) ∧
    findSub (strL "\x7d\x7d") (strL "\x7b\x7b" ++ ([] : Str)) = none ∧
    Preprocessor (strL "\x7b\x7b $a:=1 \x7d\x7d\x7b\x7b") = none := by decide

/-- Claim C10 as amended (status: corrected).  When the preprocessor run
terminates with an output — the Go loop can fail to terminate, because
the lexer loops forever on a `$` that survives variable rewriting inside
an earlier placeholder — a template with an opening `{{` and no
subsequent `}}` produces output ending with everything from that opening
marker to the end of the template, copied verbatim; placeholders before
that point are processed as usual by the same scanning loop (the witness
exhibits a processed placeholder preceding the copied suffix). -/
theorem c10_unclosed_marker_amended (s b out : Str)
    (h1 : ∃ a, s = a ++ strL "\x7b\x7b" ++ b)
    (h2 : findSub (strL "\x7d\x7d") (strL "\x7b\x7b" ++ b) = none)
    (h3 : Preprocessor s = some out) :
    ∃ p, out = p ++ strL "\x7b\x7b" ++ b :=
  preprocessF_unclosed (s.length + 1) s b out (Nat.lt_succ_self _) h1 h2 h3

theorem c10_unclosed_marker_amended_witness :
    ∃ p, strL "x\x7b\x7b 1 | add 2 \x7d\x7dy\x7b\x7b z" =
      p ++ strL "\x7b\x7b" ++ strL " z" :=
  c10_unclosed_marker_amended (strL "x\x7b\x7b 1 + 2 \x7d\x7dy\x7b\x7b z") (strL " z")
    (strL "x\x7b\x7b 1 | add 2 \x7d\x7dy\x7b\x7b z")
    ⟨strL "x\x7b\x7b 1 + 2 \x7d\x7dy", by decide⟩ (by decide) (by decide)

end Pipe
